import Mathlib

/-!
# Verification of the srclib-css selector resolution engine

Shallow embedding of the Go sources of `sourcegraph/srclib-css`
(`combinators.go`, `graph.go`, `scan.go`) and proofs about them.

Go's `*html.Node` pointer structure is embedded as follows: the upward
parent chain of a node is a `List NodeData` whose head (index 0) is the
node itself and whose element at index `k+1` is the parent of the element
at index `k`; pointer equality between chain nodes becomes equality of
indices.  The previous sibling of a node is an `Option NodeData`.
-/

namespace SrclibCSS

/-- `selPrefix` (graph.go): checks given HTML attribute key and returns
either `#`, `.` or the empty string. -/
def selPrefix (attr : String) : String :=
  if attr = "id" then "#" else if attr = "class" then "." else ""

/-- Splitting a character list at every occurrence of the separator
character, keeping empty fields: the semantics of Go's
`strings.Split(s, sep)` for a one-character separator (the only form the
repository uses, with `attrValSep = " "`). -/
def splitOnChar (sep : Char) : List Char → List (List Char)
  | [] => [[]]
  | c :: rest =>
    if c = sep then [] :: splitOnChar sep rest
    else
      match splitOnChar sep rest with
      | f :: fs => (c :: f) :: fs
      | [] => [[c]]

/-- `strings.Split(s, " ")` as used throughout the repository. -/
def stringsSplitSpace (s : String) : List String :=
  (splitOnChar ' ' s.data).map (fun l => String.mk l)

/-- One HTML attribute: key, value and the byte offset where the value
starts (`html.Attribute.ValStart`). -/
structure HAttribute where
  key : String
  val : String
  valStart : Nat := 0
deriving Repr, DecidableEq

/-- `html.NodeType`: we distinguish element nodes from all other node
types, since the Go code only tests `Type == html.ElementNode`. -/
inductive HNodeType where
  | elementNode
  | textNode
  | otherNode
deriving Repr, DecidableEq

/-- The data stored at one node of the parent chain. -/
structure NodeData where
  type : HNodeType
  attr : List HAttribute
deriving Repr, DecidableEq

/-- The candidate selector tokens of one attribute: the attribute value is
split on a single space (`strings.Split(attr.Val, " ")`) and every piece is
prefixed with `selPrefix` of the key. -/
def attrTokens (a : HAttribute) : List String :=
  (stringsSplitSpace a.val).map (fun v => selPrefix a.key ++ v)

/-- Index of the parent of chain node `j` in a chain of length `n`:
`j+1` when that index exists, `none` when node `j` is the root
(`Parent == nil`). -/
def parentIdx (n j : Nat) : Option Nat :=
  if j + 1 < n then some (j + 1) else none

/-!
## DescCombinatorSelectors (combinators.go)

The accumulator `selectors []selNode` is a `List (String × Nat)`: the
built selector string together with the chain index of the node it was
appended at (Go stores the `*html.Node` pointer; in an acyclic chain the
pointer is determined by the index).  Go's `for _, s := range selectors`
iterates over the slice as it was when the loop started, so each value
token processes a snapshot of the accumulator and appends its new entries
after it.
-/

/-- Processing of one candidate token `selStr` of the chain node at index
`k` in `DescCombinatorSelectors`: skipped entirely when the current node
is the target node (`currentNode == sn.node`, i.e. `k = 0`); otherwise for
every accumulated entry whose node differs from the current node a
combined entry is appended, and finally the pair with the target selector
itself. -/
def descTokenStep (k : Nat) (targetSel : String) (sels : List (String × Nat))
    (selStr : String) : List (String × Nat) :=
  if k = 0 then sels
  else
    sels
      ++ sels.filterMap (fun s =>
            if s.2 ≠ k then some (selStr ++ " " ++ s.1, k) else none)
      ++ [(selStr ++ " " ++ targetSel, k)]

/-- Processing of one attribute of the chain node at index `k`:
attributes whose key is neither `id` nor `class` are skipped
(`continue`), otherwise every token of the attribute is processed in
order. -/
def descAttrStep (k : Nat) (targetSel : String) (sels : List (String × Nat))
    (a : HAttribute) : List (String × Nat) :=
  if a.key ≠ "id" ∧ a.key ≠ "class" then sels
  else (attrTokens a).foldl (descTokenStep k targetSel) sels

/-- Processing of the chain node at index `k`: attributes are only
examined for element nodes. -/
def descNodeStep (targetSel : String) (sels : List (String × Nat))
    (k : Nat) (nd : NodeData) : List (String × Nat) :=
  if nd.type = HNodeType.elementNode then nd.attr.foldl (descAttrStep k targetSel) sels
  else sels

/-- The final accumulator of `DescCombinatorSelectors`: the upward walk
visits the chain nodes from the target node (index 0) to the root. -/
def descSelNodes (chain : List NodeData) (targetSel : String) : List (String × Nat) :=
  chain.enum.foldl (fun sels p => descNodeStep targetSel sels p.1 p.2) []

/-- `DescCombinatorSelectors`: walks upwards from the given node and
returns all its possible descendant combinator selector strings. -/
def DescCombinatorSelectors (chain : List NodeData) (targetSel : String) : List String :=
  (descSelNodes chain targetSel).map (·.1)

/-!
## ChildCombinatorSelectors (combinators.go)

Same walk, but a combined entry is only appended when the node of the
accumulated entry is the direct child of the current node
(`s.node != currentNode && s.node.Parent == currentNode`), and the entry
with the target selector itself is only appended when the target node is
the direct child of the current node (`sn.node.Parent == currentNode`).
-/

/-- Processing of one candidate token of chain node `k` (chain length
`n`) in `ChildCombinatorSelectors`. -/
def childTokenStep (n k : Nat) (targetSel : String) (sels : List (String × Nat))
    (selStr : String) : List (String × Nat) :=
  if k = 0 then sels
  else
    sels
      ++ sels.filterMap (fun s =>
            if s.2 ≠ k ∧ parentIdx n s.2 = some k then
              some (selStr ++ " > " ++ s.1, k)
            else none)
      ++ (if parentIdx n 0 = some k then [(selStr ++ " > " ++ targetSel, k)] else [])

/-- Processing of one attribute of chain node `k` in
`ChildCombinatorSelectors`. -/
def childAttrStep (n k : Nat) (targetSel : String) (sels : List (String × Nat))
    (a : HAttribute) : List (String × Nat) :=
  if a.key ≠ "id" ∧ a.key ≠ "class" then sels
  else (attrTokens a).foldl (childTokenStep n k targetSel) sels

/-- Processing of chain node `k` in `ChildCombinatorSelectors`. -/
def childNodeStep (n : Nat) (targetSel : String) (sels : List (String × Nat))
    (k : Nat) (nd : NodeData) : List (String × Nat) :=
  if nd.type = HNodeType.elementNode then nd.attr.foldl (childAttrStep n k targetSel) sels
  else sels

/-- The final accumulator of `ChildCombinatorSelectors`. -/
def childSelNodes (chain : List NodeData) (targetSel : String) : List (String × Nat) :=
  chain.enum.foldl (fun sels p => childNodeStep chain.length targetSel sels p.1 p.2) []

/-- `ChildCombinatorSelectors`: walks upwards from the given node and
returns all its possible child combinator selector strings. -/
def ChildCombinatorSelectors (chain : List NodeData) (targetSel : String) : List String :=
  (childSelNodes chain targetSel).map (·.1)

/-!
## Adjacent and general sibling combinators (combinators.go)

Both only examine the immediate previous sibling; note that, unlike the
descendant and child walks, they iterate over *all* attributes of the
previous sibling without filtering the key and without testing the node
type.
-/

/-- `AdjacentCombinatorSelectors`: builds the adjacent sibling combinator
selectors for the given selector node. -/
def AdjacentCombinatorSelectors (prev : Option NodeData) (targetSel : String) : List String :=
  match prev with
  | none => []
  | some p =>
    p.attr.flatMap (fun a =>
      (stringsSplitSpace a.val).map (fun v => selPrefix a.key ++ v ++ " + " ++ targetSel))

/-- `GeneralCombinatorSelectors`: builds the general sibling combinator
selectors for the given selector node. -/
def GeneralCombinatorSelectors (prev : Option NodeData) (targetSel : String) : List String :=
  match prev with
  | none => []
  | some p =>
    p.attr.flatMap (fun a =>
      (stringsSplitSpace a.val).map (fun v => selPrefix a.key ++ v ++ " ~ " ++ targetSel))

/-!
## Specification-side predicates about the combinator walks
-/

/-- The candidate tokens contributed by chain node `j` in the descendant
and child walks: the id/class attributes of an element node, values split
on a single space and prefixed with `#`/`.`. -/
def nodeTokens (chain : List NodeData) (j : Nat) : List String :=
  match chain[j]? with
  | some nd =>
    if nd.type = HNodeType.elementNode then
      (nd.attr.filter (fun a => a.key = "id" ∨ a.key = "class")).flatMap attrTokens
    else []
  | none => []

/-- `ChildChain chain targetSel k s` holds when `s` has the form
`tok_k > tok_(k-1) > … > tok_1 > targetSel` where every `tok_j` is a
candidate token of chain node `j`: every `>` link of the string joins a
node to its direct parent, never skipping a generation. -/
inductive ChildChain (chain : List NodeData) (targetSel : String) : Nat → String → Prop
  | base (tok : String) (h : tok ∈ nodeTokens chain 1) :
      ChildChain chain targetSel 1 (tok ++ " > " ++ targetSel)
  | step (k : Nat) (tok s : String) (h : tok ∈ nodeTokens chain (k + 2))
      (hs : ChildChain chain targetSel (k + 1) s) :
      ChildChain chain targetSel (k + 2) (tok ++ " > " ++ s)

/-- Invariant of the child-combinator accumulator: every entry is a
consecutive parent-child chain ending in the target selector. -/
def ChildInv (chain : List NodeData) (targetSel : String)
    (sels : List (String × Nat)) : Prop :=
  ∀ e ∈ sels, ChildChain chain targetSel e.2 e.1

/-- Invariant of a combinator accumulator: every built selector string
ends in the target selector. -/
def EndsInTarget (targetSel : String) (sels : List (String × Nat)) : Prop :=
  ∀ e ∈ sels, ∃ p, e.1 = p ++ targetSel

/-- Dropping every attribute whose key is neither `id` nor `class` from a
node. -/
def filterIdClass (nd : NodeData) : NodeData :=
  ⟨nd.type, nd.attr.filter (fun a => a.key = "id" ∨ a.key = "class")⟩

/-!
## The test fixtures of graph_test.go
-/

/-- The 4-level ancestor chain of `TestDescCombinatorSelectors`. -/
def descTestChain : List NodeData :=
  [ ⟨HNodeType.elementNode, [⟨"class", "container-inner col-xs-12", 0⟩]⟩,
    ⟨HNodeType.elementNode, [⟨"id", "container container2", 0⟩,
                             ⟨"class", "section col-xs-12 center", 0⟩]⟩,
    ⟨HNodeType.elementNode, [⟨"id", "container-wrapper", 0⟩,
                             ⟨"class", "col-xs-6", 0⟩]⟩,
    ⟨HNodeType.elementNode, [⟨"id", "app", 0⟩]⟩ ]

/-- The expected list of `TestDescCombinatorSelectors`, as written in the
test (35 strings). -/
def descTestExpected : List String :=
  [ "#app .container-inner",
    "#app #container-wrapper .container-inner",
    "#app #container-wrapper #container .container-inner",
    "#app #container-wrapper #container2 .container-inner",
    "#app #container-wrapper .section .container-inner",
    "#app #container-wrapper .col-xs-12 .container-inner",
    "#app #container-wrapper .center .container-inner",
    "#app .col-xs-6 .container-inner",
    "#app .col-xs-6 #container .container-inner",
    "#app .col-xs-6 #container2 .container-inner",
    "#app .col-xs-6 .section .container-inner",
    "#app .col-xs-6 .col-xs-12 .container-inner",
    "#app .col-xs-6 .center .container-inner",
    "#app #container .container-inner",
    "#app #container2 .container-inner",
    "#app .section .container-inner",
    "#app .col-xs-12 .container-inner",
    "#app .center .container-inner",
    "#container-wrapper .container-inner",
    "#container-wrapper #container .container-inner",
    "#container-wrapper #container2 .container-inner",
    "#container-wrapper .section .container-inner",
    "#container-wrapper .col-xs-12 .container-inner",
    "#container-wrapper .center .container-inner",
    ".col-xs-6 .container-inner",
    ".col-xs-6 #container .container-inner",
    ".col-xs-6 #container2 .container-inner",
    ".col-xs-6 .section .container-inner",
    ".col-xs-6 .col-xs-12 .container-inner",
    ".col-xs-6 .center .container-inner",
    "#container .container-inner",
    "#container2 .container-inner",
    ".section .container-inner",
    ".col-xs-12 .container-inner",
    ".center .container-inner" ]

/-- The 3-level ancestor chain of `TestChildCombinators`. -/
def childTestChain : List NodeData :=
  [ ⟨HNodeType.elementNode, [⟨"id", "container-inner", 0⟩,
                             ⟨"class", "container-inner", 0⟩]⟩,
    ⟨HNodeType.elementNode, [⟨"id", "container container2", 0⟩,
                             ⟨"class", "section", 0⟩]⟩,
    ⟨HNodeType.elementNode, [⟨"id", "container-wrapper", 0⟩,
                             ⟨"class", "col-xs-6", 0⟩]⟩ ]

/-- The expected list of `TestChildCombinators` (9 strings). -/
def childTestExpected : List String :=
  [ "#container > .container-inner",
    "#container2 > .container-inner",
    ".section > .container-inner",
    "#container-wrapper > #container > .container-inner",
    "#container-wrapper > #container2 > .container-inner",
    "#container-wrapper > .section > .container-inner",
    ".col-xs-6 > #container > .container-inner",
    ".col-xs-6 > #container2 > .container-inner",
    ".col-xs-6 > .section > .container-inner" ]

/-!
## lastSelector (graph.go)

`lastSelector` splits the selector chain with `strings.FieldsFunc` on the
combinator characters, indexes the last field (which panics when the
split yields no fields), trims it with `strings.TrimSpace` and matches it
against the regexp `.*([\.\#].+)`.  The fallible indexing is embedded as
`Except Unit`: `Except.error ()` is the out-of-range panic.
-/

/-- `selSplitFn` (graph.go): returns true if the given CSS combinator
character is valid. -/
def selSplitFn (combinator : Char) : Bool :=
  combinator == '>' || combinator == '+' || combinator == '~'

/-- `strings.FieldsFunc`: splits at every character satisfying `f`,
dropping empty fields.  `acc` is the current field accumulated in
reverse. -/
def fieldsFuncAcc (f : Char → Bool) : List Char → List Char → List (List Char)
  | [], acc => if acc.isEmpty then [] else [acc.reverse]
  | c :: rest, acc =>
    if f c then
      if acc.isEmpty then fieldsFuncAcc f rest []
      else acc.reverse :: fieldsFuncAcc f rest []
    else fieldsFuncAcc f rest (c :: acc)

/-- `strings.FieldsFunc(s, f)`. -/
def fieldsFunc (f : Char → Bool) (s : List Char) : List (List Char) :=
  fieldsFuncAcc f s []

/-- `unicode.IsSpace`: Unicode White_Space code points. -/
def goIsSpace (c : Char) : Bool :=
  decide (0x9 ≤ c.toNat ∧ c.toNat ≤ 0xD) || decide (c.toNat = 0x20) ||
  decide (c.toNat = 0x85) || decide (c.toNat = 0xA0) || decide (c.toNat = 0x1680) ||
  decide (0x2000 ≤ c.toNat ∧ c.toNat ≤ 0x200A) || decide (c.toNat = 0x2028) ||
  decide (c.toNat = 0x2029) || decide (c.toNat = 0x202F) || decide (c.toNat = 0x205F) ||
  decide (c.toNat = 0x3000)

/-- `strings.TrimSpace`: removes leading and trailing white space. -/
def goTrimSpace (cs : List Char) : List Char :=
  ((cs.dropWhile goIsSpace).reverse.dropWhile goIsSpace).reverse

/-- The submatch of the capture group of `.*([\.\#].+)` when matching
starts at the head of the given non-newline run: with both `.*` and `.+`
greedy, the group starts at the *last* position holding `.` or `#` that
is followed by at least one more character, and extends to the end of the
run; `none` when no such position exists. -/
def findLastDotHash : List Char → Option (List Char)
  | [] => none
  | [_] => none
  | a :: b :: rest =>
    match findLastDotHash (b :: rest) with
    | some g => some g
    | none => if a = '.' ∨ a = '#' then some (a :: b :: rest) else none

/-- `descSelectorRegexp.FindStringSubmatch` (pattern `.*([\.\#].+)`),
returning the capture group of the leftmost match: match attempts start
at each position in turn; at a given start, `.*` and the group cannot
cross a newline, so only the non-newline run beginning there is
examined. -/
def descSelectorSubmatch : List Char → Option (List Char)
  | [] => none
  | c :: rest =>
    match findLastDotHash ((c :: rest).takeWhile (fun x => x ≠ '\n')) with
    | some g => some g
    | none => descSelectorSubmatch rest

/-- `lastSelector` (graph.go): returns the last selector of the given
selector chain; `Except.error ()` models the index-out-of-range panic of
`selectors[len(selectors)-1]` when `strings.FieldsFunc` returns no
fields, and `Except.ok none` models the `nil` return when the regexp does
not match. -/
def lastSelector (s : String) : Except Unit (Option String) :=
  match (fieldsFunc selSplitFn s.data).getLast? with
  | none => Except.error ()
  | some lastField =>
    match descSelectorSubmatch (goTrimSpace lastField) with
    | none => Except.ok none
    | some g => Except.ok (some (String.mk g))

/-!
## findOffsets (graph.go)

Go iterates `for offset, ch := range fileText`, visiting each rune with
its byte offset; we iterate the character list, advancing the offset by
the UTF-8 byte length of each character.
-/

/-- The UTF-8 encoding of one character (its code point is below
`0x110000` and never in the surrogate range, so the four standard cases
cover it). -/
def encChar (c : Char) : List Nat :=
  let v := c.toNat
  if v < 0x80 then [v]
  else if v < 0x800 then [0xC0 + v / 0x40, 0x80 + v % 0x40]
  else if v < 0x10000 then
    [0xE0 + v / 0x1000, 0x80 + v / 0x40 % 0x40, 0x80 + v % 0x40]
  else
    [0xF0 + v / 0x40000, 0x80 + v / 0x1000 % 0x40, 0x80 + v / 0x40 % 0x40, 0x80 + v % 0x40]

/-- The UTF-8 byte sequence of a character list. -/
def utf8Enc (cs : List Char) : List Nat :=
  cs.flatMap encChar

/-- The UTF-8 byte length of a character list: Go's `len([]byte(s))`. -/
def utf8Len (cs : List Char) : Nat :=
  (utf8Enc cs).length

/-- The byte offset of the character at index `i`. -/
def utf8ByteOffset (cs : List Char) (i : Nat) : Nat :=
  utf8Len (cs.take i)

/-- The byte slice `bytes[s:e]`. -/
def byteSlice (bytes : List Nat) (s e : Nat) : List Nat :=
  (bytes.drop s).take (e - s)

/-- The (line, column) position reached from starting position `(L, C)`
after scanning the given characters, counting `\n` exactly as the
`findOffsets` loop does. -/
def relPos (L C : Int) : List Char → Int × Int
  | [] => (L, C)
  | c :: cs => if c = '\n' then relPos (L + 1) 1 cs else relPos L (C + 1) cs

/-- The scanning loop of `findOffsets`: at each character, first test
whether the tracked position equals the requested one and if so return
`(offset, offset+len(token))`; otherwise advance the line/column counters
and the byte offset. -/
def findOffsetsAux (tokLen : Nat) (line col : Int) :
    List Char → Int → Int → Nat → Int × Int
  | [], _, _, _ => (-1, -1)
  | c :: cs, curLine, curCol, offset =>
    if curLine = line ∧ curCol = col then
      ((offset : Int), ((offset + tokLen : Nat) : Int))
    else if c = '\n' then
      findOffsetsAux tokLen line col cs (curLine + 1) 1 (offset + (encChar c).length)
    else
      findOffsetsAux tokLen line col cs curLine (curCol + 1) (offset + (encChar c).length)

/-- `findOffsets` (graph.go): discovers the start and end byte offsets of
the given token on `fileText` from its 1-based line and column; returns
`(-1, -1)` if the position is never reached. -/
def findOffsets (fileText : String) (line col : Int) (token : String) : Int × Int :=
  findOffsetsAux (utf8Len token.data) line col fileText.data 1 1 0

/-!
## Defs and refs (graph.go)
-/

/-- `filepath.ToSlash`: replaces the OS path separator by `/`; on the
target platform the separator is already `/`, so this is the identity. -/
def toSlash (s : String) : String := s

/-- `strings.HasPrefix(s, prefix)`. -/
def goHasPrefix (s pre : String) : Bool :=
  pre.data.isPrefixOf s.data

/-- Go's conversion `uint32(i)` of a (64-bit) signed integer: truncation
to the low 32 bits. -/
def intToUInt32 (i : Int) : Nat :=
  (i % 4294967296).toNat

/-- The payload marshalled into a `graph.Def`'s `Data` field
(`css_def.DefData`; only `Keyword` and `Kind` are set). -/
structure DefData where
  keyword : String
  kind : String
deriving Repr, DecidableEq

/-- `graph.Def` as populated by this repository. -/
structure GraphDef where
  unitType : String
  unit : String
  path : String
  name : String
  file : String
  defStart : Nat
  defEnd : Nat
  data : DefData
deriving Repr, DecidableEq

/-- `graph.Ref` as populated by this repository (`defSite` is the `Def`
field). -/
structure GraphRef where
  defUnitType : String
  defUnit : String
  defPath : String
  unit : String
  file : String
  defSite : Bool
  start : Nat
  endOff : Nat
deriving Repr, DecidableEq

/-- `css.Selector` of the external CSS parser: the selector text and its
1-based position. -/
structure CSSSelector where
  value : String
  line : Int
  column : Int
deriving Repr, DecidableEq

/-- `css.Declaration` of the external CSS parser. -/
structure CSSDeclaration where
  property : String
  line : Int
  column : Int
deriving Repr, DecidableEq

/-- `css.Rule` of the external CSS parser. -/
structure CSSRule where
  selectors : List CSSSelector
  declarations : List CSSDeclaration
deriving Repr, DecidableEq

/-- `selectorKind` (graph.go). -/
def selectorKind (selectorStr : String) : String :=
  if goHasPrefix selectorStr "#" then "id"
  else if goHasPrefix selectorStr "." then "class"
  else ""

/-- `selectorDefPath` (graph.go): the def path of the given selector. -/
def selectorDefPath (filePath : String) (s : String) : String :=
  toSlash filePath ++ s

/-- `mdnCSSReferenceURL` (graph.go). -/
def mdnCSSReferenceURL : String :=
  "https://developer.mozilla.org/en-US/docs/Web/CSS/"

/-- `vendorPrefixRegExp.ReplaceAllString(s, "")` for the anchored pattern
`^-webkit-|^-moz-|^-ms-|^-o-`: removes the matching vendor marker from
the front (only ever called when one of the four is present). -/
def stripVendorPrefix (s : String) : String :=
  if goHasPrefix s "-webkit-" then String.mk (s.data.drop 8)
  else if goHasPrefix s "-moz-" then String.mk (s.data.drop 5)
  else if goHasPrefix s "-ms-" then String.mk (s.data.drop 4)
  else if goHasPrefix s "-o-" then String.mk (s.data.drop 3)
  else s

/-- `mdnDefPath` (graph.go): the MDN CSS reference URL of the given css
property. -/
def mdnDefPath (cssProperty : String) : String :=
  if goHasPrefix cssProperty "-webkit-" || goHasPrefix cssProperty "-moz-"
      || goHasPrefix cssProperty "-ms-" || goHasPrefix cssProperty "-o-" then
    mdnCSSReferenceURL ++ stripVendorPrefix cssProperty
  else
    mdnCSSReferenceURL ++ cssProperty

/-- The `defExist` closure of `doGraph`: true if a definition with the
same name and def path is already among the accumulated definitions. -/
def defExist (defs : List GraphDef) (d : GraphDef) : Bool :=
  defs.any (fun e => e.name == d.name && e.path == d.path)

/-- The `graph.Def` built by `cssDefsAndRefs` for one selector of one
rule: the raw selector text `s.Value` is the name, the def path is the
file path concatenated with `s.Value`, and the byte span comes from
`findOffsets` with the `0 → 1` workaround on the start. -/
def mkSelectorDef (s : CSSSelector) (uName data filePath : String) : GraphDef :=
  let off := findOffsets data s.line s.column s.value
  let defStart := if off.1 = 0 then 1 else off.1
  { unitType := "basic-css"
    unit := uName
    path := selectorDefPath filePath s.value
    name := s.value
    file := toSlash filePath
    defStart := intToUInt32 defStart
    defEnd := intToUInt32 off.2
    data := ⟨"selector", selectorKind s.value⟩ }

/-- The definition-site self reference appended for each surviving
definition. -/
def selectorSelfRef (d : GraphDef) : GraphRef :=
  { defUnitType := d.unitType, defUnit := d.unit, defPath := d.path,
    unit := d.unit, file := d.file, defSite := true,
    start := d.defStart, endOff := d.defEnd }

/-- `cssDefsAndRefs` (graph.go): returns the defs and refs for one CSS
selector of a rule; when a definition with the same (name, path) already
exists nothing is produced, otherwise the definition together with its
definition-site self reference. -/
def cssDefsAndRefs (s : CSSSelector) (uName data filePath : String)
    (existing : List GraphDef) : List GraphDef × List GraphRef :=
  if defExist existing (mkSelectorDef s uName data filePath) then ([], [])
  else
    ([mkSelectorDef s uName data filePath],
     [selectorSelfRef (mkSelectorDef s uName data filePath)])

/-- `mdnCSSRefs` (graph.go): refs to MDN for the CSS properties of one
rule's declarations. -/
def mdnCSSRefs (uName data filePath : String) (decls : List CSSDeclaration) :
    List GraphRef :=
  decls.map (fun dd =>
    let off := findOffsets data dd.line dd.column dd.property
    { defUnitType := "URL", defUnit := "MDN", defPath := mdnDefPath dd.property,
      unit := uName, file := toSlash filePath, defSite := false,
      start := intToUInt32 off.1, endOff := intToUInt32 off.2 })

/-!
## htmlRefs (graph.go)
-/

/-- `SelectorDef` (graph.go): first a direct name match over the
definitions, then a match of any combinator-built candidate selector, in
the order descendant, child, adjacent, general. -/
def SelectorDef (defs : List GraphDef) (sel : String) (chain : List NodeData)
    (prev : Option NodeData) : Option GraphDef :=
  match defs.find? (fun d => d.name == sel) with
  | some d => some d
  | none =>
    let combSelectors :=
      DescCombinatorSelectors chain sel ++ ChildCombinatorSelectors chain sel
        ++ AdjacentCombinatorSelectors prev sel ++ GeneralCombinatorSelectors prev sel
    defs.find? (fun d => combSelectors.any (fun cs => d.name == cs))

/-- One node of the parsed HTML document tree (`html.Parse`); parent and
previous-sibling pointers are recovered during the walk. -/
inductive HNode where
  | mk (type : HNodeType) (attr : List HAttribute) (children : List HNode)

/-- The data of an `HNode`. -/
def HNode.nodeData : HNode → NodeData
  | .mk t a _ => ⟨t, a⟩

/-- The inner loop over the space-separated values of one id/class
attribute in `htmlRefs`'s walk: tracks the `start`/`end` byte offsets in
uint32 arithmetic and emits a ref for every value whose selector
resolves via `SelectorDef`. -/
def attrValsRefs (defs : List GraphDef) (uName filePath : String)
    (chain : List NodeData) (prev : Option NodeData) (key : String) :
    List String → Nat → List GraphRef
  | [], _ => []
  | val :: rest, start =>
    let endOff := (start + utf8Len val.data) % 4294967296
    match SelectorDef defs (selPrefix key ++ val) chain prev with
    | none => attrValsRefs defs uName filePath chain prev key rest ((endOff + 1) % 4294967296)
    | some d =>
      { defUnitType := "basic-css", defUnit := uName, defPath := d.path,
        unit := uName, file := toSlash filePath, defSite := false,
        start := start, endOff := endOff }
        :: attrValsRefs defs uName filePath chain prev key rest ((endOff + 1) % 4294967296)

/-- Processing of one attribute of an element node in the walk:
attributes other than id/class are skipped. -/
def htmlAttrRefs (defs : List GraphDef) (uName filePath : String)
    (chain : List NodeData) (prev : Option NodeData) (a : HAttribute) : List GraphRef :=
  if a.key ≠ "id" ∧ a.key ≠ "class" then []
  else
    attrValsRefs defs uName filePath chain prev a.key (stringsSplitSpace a.val)
      (a.valStart % 4294967296)

mutual

/-- The recursive `walk` closure of `htmlRefs` on one node: `anc` is the
node's ancestor list (innermost first) and `prev` its previous sibling. -/
def walkNode (defs : List GraphDef) (uName filePath : String)
    (anc : List NodeData) (prev : Option NodeData) : HNode → List GraphRef
  | HNode.mk t attrs children =>
    (if t = HNodeType.elementNode then
      attrs.flatMap (htmlAttrRefs defs uName filePath (⟨t, attrs⟩ :: anc) prev)
    else [])
      ++ walkChildren defs uName filePath (⟨t, attrs⟩ :: anc) none children

/-- The walk over a node's children, tracking each child's previous
sibling. -/
def walkChildren (defs : List GraphDef) (uName filePath : String)
    (anc : List NodeData) (prev : Option NodeData) : List HNode → List GraphRef
  | [] => []
  | c :: rest =>
    walkNode defs uName filePath anc prev c
      ++ walkChildren defs uName filePath anc (some c.nodeData) rest

end

/-- One token of the `<link>`-scanning tokenizer pass. -/
inductive TokenType where
  | startTagToken
  | selfClosingTagToken
  | otherToken
deriving Repr, DecidableEq

/-- An HTML token: its type, tag name (`Data`) and attributes. -/
structure HTMLToken where
  tokType : TokenType
  data : String
  attr : List HAttribute
deriving Repr, DecidableEq

/-- Whether a token is a `<link rel="stylesheet" ...>` start or
self-closing tag. -/
def isStylesheetLinkToken (t : HTMLToken) : Bool :=
  (t.tokType == TokenType.startTagToken || t.tokType == TokenType.selfClosingTagToken)
    && t.data == "link"
    && t.attr.any (fun a => a.key == "rel" && a.val == "stylesheet")

/-- The `href` collected from a link token's attributes (the last `href`
attribute wins, as in the Go loop). -/
def tokenHref (t : HTMLToken) : String :=
  t.attr.foldl (fun h a => if a.key = "href" then a.val else h) ""

/-- The stylesheet HREFs of an HTML document, in token order, each
normalized by `resolve` (in the source:
`normalizeStylesheetHREF(href, filepath.Dir(filePath))`, i.e. a join with
the HTML file's directory plus separator canonicalization — kept
abstract here as a function parameter). -/
def stylesheetHREFs (tokens : List HTMLToken) (resolve : String → String) : List String :=
  tokens.filterMap (fun t =>
    if isStylesheetLinkToken t then some (resolve (tokenHref t)) else none)

/-- `filterDefs` (graph.go). -/
def filterDefs (defs : List GraphDef) (predicate : GraphDef → Bool) : List GraphDef :=
  defs.filter predicate

/-- `htmlRefs` (graph.go): refs for the CSS selectors used by one HTML
document, given its token stream and parsed tree; definitions are first
restricted to those whose file is among the document's resolved
stylesheet links, and when none remain the function returns before the
DOM walk. -/
def htmlRefs (uName filePath : String) (tokens : List HTMLToken) (doc : HNode)
    (selectorDefs : List GraphDef) (resolve : String → String) : List GraphRef :=
  let hrefs := stylesheetHREFs tokens resolve
  let defs := filterDefs selectorDefs (fun d => hrefs.any (fun f => d.file == f))
  if defs.length = 0 then []
  else walkNode defs uName filePath [] none doc

/-- The accumulated definitions of a `doGraph` run are pairwise distinct
on (name, path), and every definition's path is its file concatenated
with its name (the shape produced by `selectorDefPath`). -/
def DefsInv (defs : List GraphDef) : Prop :=
  defs.Pairwise (fun a b => ¬(a.name = b.name ∧ a.path = b.path)) ∧
  ∀ d ∈ defs, d.path = d.file ++ d.name

/-!
## doGraph (graph.go)
-/

/-- One file of the source unit, with the outputs of the external
parsers: a CSS file carries its raw text and its parse result (`none`
when `cssParser.Parse` fails, which is logged and skipped), an HTML file
carries its token stream and parsed tree, and unreadable or other files
are skipped. -/
inductive UnitFile where
  | cssFile (path : String) (data : String) (parsed : Option (List CSSRule))
  | htmlFile (path : String) (tokens : List HTMLToken) (doc : HNode)
  | otherFile (path : String)

/-- Processing of one selector of a rule in the CSS pass of `doGraph`:
empty selector values are skipped (logged), otherwise `cssDefsAndRefs`
runs against the definitions accumulated so far. -/
def cssSelectorStep (uName data path : String)
    (acc : List GraphDef × List GraphRef) (s : CSSSelector) :
    List GraphDef × List GraphRef :=
  if s.value = "" then acc
  else
    (acc.1 ++ (cssDefsAndRefs s uName data path acc.1).1,
     acc.2 ++ (cssDefsAndRefs s uName data path acc.1).2)

/-- Processing of one rule in the CSS pass of `doGraph`: all its
selectors, then the MDN refs of its declarations. -/
def cssRuleStep (uName data path : String)
    (acc : List GraphDef × List GraphRef) (r : CSSRule) :
    List GraphDef × List GraphRef :=
  let acc2 := r.selectors.foldl (cssSelectorStep uName data path) acc
  (acc2.1, acc2.2 ++ mdnCSSRefs uName data path r.declarations)

/-- Processing of one unit file in the CSS pass of `doGraph`. -/
def cssFileStep (uName : String) (acc : List GraphDef × List GraphRef) :
    UnitFile → List GraphDef × List GraphRef
  | UnitFile.cssFile path data (some rules) => rules.foldl (cssRuleStep uName data path) acc
  | _ => acc

/-- `doGraph` (graph.go): the CSS pass over all unit files accumulates
defs and refs; the HTML pass then appends, for each HTML file, the refs
of `htmlRefs` resolved against the complete def set.  `resolve` abstracts
`normalizeStylesheetHREF` per HTML file path. -/
def doGraph (uName : String) (files : List UnitFile)
    (resolve : String → String → String) : List GraphDef × List GraphRef :=
  let acc1 := files.foldl (cssFileStep uName) ([], [])
  let refs2 := files.foldl (fun refs f =>
    match f with
    | UnitFile.htmlFile path tokens doc =>
      refs ++ htmlRefs uName path tokens doc acc1.1 (resolve path)
    | _ => refs) acc1.2
  (acc1.1, refs2)

/-!
## Helper lemmas
-/

lemma mem_nodeTokens {chain : List NodeData} {k : Nat} {nd : NodeData} {a : HAttribute}
    (hget : chain[k]? = some nd) (hel : nd.type = HNodeType.elementNode)
    (ha : a ∈ nd.attr) (hkey : a.key = "id" ∨ a.key = "class") :
    ∀ tok ∈ attrTokens a, tok ∈ nodeTokens chain k := by
  intro tok ht
  unfold nodeTokens
  rw [hget]
  simp only [hel, if_pos]
  rw [List.mem_flatMap]
  exact ⟨a, List.mem_filter.mpr ⟨ha, by simpa using hkey⟩, ht⟩

lemma childChain_one_le {chain : List NodeData} {targetSel : String} {k : Nat} {s : String}
    (h : ChildChain chain targetSel k s) : 1 ≤ k := by
  cases h <;> omega

lemma childTokenStep_inv {chain : List NodeData} {targetSel : String} {k : Nat}
    {sels : List (String × Nat)} {selStr : String}
    (hsel : selStr ∈ nodeTokens chain k)
    (hinv : ChildInv chain targetSel sels) :
    ChildInv chain targetSel (childTokenStep chain.length k targetSel sels selStr) := by
  unfold childTokenStep
  split
  · exact hinv
  intro e he
  simp only [List.mem_append] at he
  rcases he with (he | he) | he
  · exact hinv e he
  · rw [List.mem_filterMap] at he
    obtain ⟨s, hs, hcond⟩ := he
    by_cases hc : s.2 ≠ k ∧ parentIdx chain.length s.2 = some k
    · rw [if_pos hc] at hcond
      obtain rfl := Option.some.inj hcond
      have hch := hinv s hs
      have h1 : 1 ≤ s.2 := childChain_one_le hch
      have hpar := hc.2
      unfold parentIdx at hpar
      split at hpar
      · obtain rfl := Option.some.inj hpar
        obtain ⟨m, hm⟩ : ∃ m, s.2 = m + 1 := ⟨s.2 - 1, by omega⟩
        have h2 : s.2 + 1 = m + 2 := by omega
        rw [h2]
        exact ChildChain.step m selStr s.1 (by rw [h2] at hsel; exact hsel)
          (by rw [hm] at hch; exact hch)
      · exact absurd hpar (by simp)
    · rw [if_neg hc] at hcond
      exact absurd hcond (by simp)
  · split at he
    next hpar =>
      rw [List.mem_singleton] at he
      subst he
      unfold parentIdx at hpar
      split at hpar
      · obtain rfl := Option.some.inj hpar
        exact ChildChain.base selStr hsel
      · exact absurd hpar (by simp)
    next => exact absurd he (List.not_mem_nil e)

lemma childAttrStep_inv {chain : List NodeData} {targetSel : String} {k : Nat}
    {sels : List (String × Nat)} {nd : NodeData} {a : HAttribute}
    (hget : chain[k]? = some nd) (hel : nd.type = HNodeType.elementNode)
    (ha : a ∈ nd.attr)
    (hinv : ChildInv chain targetSel sels) :
    ChildInv chain targetSel (childAttrStep chain.length k targetSel sels a) := by
  unfold childAttrStep
  split
  · exact hinv
  next hkey =>
    have hk : a.key = "id" ∨ a.key = "class" := by tauto
    exact List.foldlRecOn (attrTokens a) _ sels hinv
      (fun acc hacc tok htok => childTokenStep_inv (mem_nodeTokens hget hel ha hk tok htok) hacc)

lemma childNodeStep_inv {chain : List NodeData} {targetSel : String} {k : Nat}
    {sels : List (String × Nat)} {nd : NodeData}
    (hget : chain[k]? = some nd)
    (hinv : ChildInv chain targetSel sels) :
    ChildInv chain targetSel (childNodeStep chain.length targetSel sels k nd) := by
  unfold childNodeStep
  split
  next hel =>
    exact List.foldlRecOn nd.attr _ sels hinv
      (fun acc hacc a ha => childAttrStep_inv hget hel ha hacc)
  · exact hinv

lemma childSelNodes_inv (chain : List NodeData) (targetSel : String) :
    ChildInv chain targetSel (childSelNodes chain targetSel) := by
  unfold childSelNodes
  refine List.foldlRecOn chain.enum _ [] (fun e he => absurd he (List.not_mem_nil e))
    (fun acc hacc p hp => ?_)
  exact childNodeStep_inv (List.mk_mem_enum_iff_getElem?.mp (by simpa using hp)) hacc

/-!
## C1: descendant-combinator enumeration on the test chain
-/

/-- C1 (counterexample): on the 4-level ancestor chain of the spec's
descendant-enumeration test, `DescCombinatorSelectors` produces 35
pairwise-distinct selector strings, so its output cannot be, up to
reordering, a collection of exactly 34 strings as the claim states. -/
theorem descCombinator_test_output_has_35_distinct_strings :
    (DescCombinatorSelectors descTestChain ".container-inner").Nodup ∧
    (DescCombinatorSelectors descTestChain ".container-inner").length = 35 := by
  decide

/-- C1 (amended): on the 4-level ancestor chain of the spec's
descendant-enumeration test, `DescCombinatorSelectors` produces, up to
reordering, exactly the 35 descendant selector strings obtained by
concatenating every ancestor token with every suffix built from tokens
strictly below that ancestor, down to the target's matched selector,
including multi-hop chains such as `#app #container-wrapper .container-inner`
(the expected list of `TestDescCombinatorSelectors`). -/
theorem descCombinator_test_enumeration :
    (DescCombinatorSelectors descTestChain ".container-inner").Perm descTestExpected := by
  decide

/-!
## C2: child combinators compose only across direct parent-child edges
-/

/-- C2: every entry of the child-combinator accumulator is a chain
`tok_k > … > tok_1 > targetSel` whose links all join a node to its direct
parent (never skipping a generation), hence every output string of
`ChildCombinatorSelectors` is such a chain; and on the 3-level ancestor
chain of the spec's child-enumeration test it produces, up to reordering,
exactly the 9 expected child-combinator strings. -/
theorem childCombinator_direct_parent_links :
    (∀ (chain : List NodeData) (targetSel s : String),
        s ∈ ChildCombinatorSelectors chain targetSel →
        ∃ k, ChildChain chain targetSel k s) ∧
    (ChildCombinatorSelectors childTestChain ".container-inner").Perm childTestExpected := by
  constructor
  · intro chain targetSel s hs
    rw [ChildCombinatorSelectors, List.mem_map] at hs
    obtain ⟨e, he, rfl⟩ := hs
    exact ⟨e.2, childSelNodes_inv chain targetSel e he⟩
  · decide

/-- C2 (witness): instantiating the theorem on the test chain at the
concrete output string `#container > .container-inner`. -/
theorem childCombinator_direct_parent_links_witness :
    ∃ k, ChildChain childTestChain ".container-inner" k "#container > .container-inner" :=
  childCombinator_direct_parent_links.1 childTestChain ".container-inner"
    "#container > .container-inner" (by decide)

/-!
## Suffix invariant: every built selector ends in the matched selector
-/

lemma descTokenStep_suffix {targetSel : String} {k : Nat}
    {sels : List (String × Nat)} {selStr : String}
    (hinv : EndsInTarget targetSel sels) :
    EndsInTarget targetSel (descTokenStep k targetSel sels selStr) := by
  unfold descTokenStep
  split
  · exact hinv
  intro e he
  simp only [List.mem_append] at he
  rcases he with (he | he) | he
  · exact hinv e he
  · rw [List.mem_filterMap] at he
    obtain ⟨s, hs, hcond⟩ := he
    by_cases hc : s.2 ≠ k
    · rw [if_pos hc] at hcond
      obtain rfl := Option.some.inj hcond
      obtain ⟨p, hp⟩ := hinv s hs
      refine ⟨selStr ++ " " ++ p, ?_⟩
      show selStr ++ " " ++ s.1 = _
      rw [hp]
      exact (String.append_assoc _ _ _).symm
    · rw [if_neg hc] at hcond
      exact absurd hcond (by simp)
  · rw [List.mem_singleton] at he
    subst he
    exact ⟨selStr ++ " ", rfl⟩

lemma descAttrStep_suffix {targetSel : String} {k : Nat}
    {sels : List (String × Nat)} {a : HAttribute}
    (hinv : EndsInTarget targetSel sels) :
    EndsInTarget targetSel (descAttrStep k targetSel sels a) := by
  unfold descAttrStep
  split
  · exact hinv
  · exact List.foldlRecOn (attrTokens a) _ sels hinv
      (fun acc hacc tok _ => descTokenStep_suffix hacc)

lemma descSelNodes_suffix (chain : List NodeData) (targetSel : String) :
    EndsInTarget targetSel (descSelNodes chain targetSel) := by
  unfold descSelNodes
  refine List.foldlRecOn chain.enum _ [] (fun e he => absurd he (List.not_mem_nil e))
    (fun acc hacc p _ => ?_)
  unfold descNodeStep
  split
  · exact List.foldlRecOn p.2.attr _ acc hacc (fun b hb a _ => descAttrStep_suffix hb)
  · exact hacc

lemma childChain_ends {chain : List NodeData} {targetSel : String} {k : Nat} {s : String}
    (h : ChildChain chain targetSel k s) : ∃ p, s = p ++ targetSel := by
  induction h with
  | base tok _ => exact ⟨tok ++ " > ", rfl⟩
  | step k tok s _ _ ih =>
    obtain ⟨p, hp⟩ := ih
    refine ⟨tok ++ " > " ++ p, ?_⟩
    rw [hp]
    exact (String.append_assoc _ _ _).symm

/-!
## C10: every candidate ends in the node's own matched selector
-/

/-- C10: every string returned by each of the four combinator functions
ends with the node's own matched selector text as its rightmost component:
each candidate is obtained by prepending ancestor or previous-sibling
tokens to a suffix that terminates in the original matched selector. -/
theorem combinator_outputs_end_in_matched_selector :
    ∀ (chain : List NodeData) (prev : Option NodeData) (targetSel s : String),
      (s ∈ DescCombinatorSelectors chain targetSel → ∃ p, s = p ++ targetSel) ∧
      (s ∈ ChildCombinatorSelectors chain targetSel → ∃ p, s = p ++ targetSel) ∧
      (s ∈ AdjacentCombinatorSelectors prev targetSel → ∃ p, s = p ++ targetSel) ∧
      (s ∈ GeneralCombinatorSelectors prev targetSel → ∃ p, s = p ++ targetSel) := by
  intro chain prev targetSel s
  refine ⟨?_, ?_, ?_, ?_⟩
  · intro hs
    rw [DescCombinatorSelectors, List.mem_map] at hs
    obtain ⟨e, he, rfl⟩ := hs
    exact descSelNodes_suffix chain targetSel e he
  · intro hs
    rw [ChildCombinatorSelectors, List.mem_map] at hs
    obtain ⟨e, he, rfl⟩ := hs
    exact childChain_ends (childSelNodes_inv chain targetSel e he)
  · intro hs
    match prev with
    | none => exact absurd hs (List.not_mem_nil s)
    | some p =>
      simp only [AdjacentCombinatorSelectors, List.mem_flatMap, List.mem_map] at hs
      obtain ⟨a, _, v, _, rfl⟩ := hs
      exact ⟨selPrefix a.key ++ v ++ " + ", rfl⟩
  · intro hs
    match prev with
    | none => exact absurd hs (List.not_mem_nil s)
    | some p =>
      simp only [GeneralCombinatorSelectors, List.mem_flatMap, List.mem_map] at hs
      obtain ⟨a, _, v, _, rfl⟩ := hs
      exact ⟨selPrefix a.key ++ v ++ " ~ ", rfl⟩

/-- C10 (witness): instantiating the theorem at the descendant test chain
and a concrete output string. -/
theorem combinator_outputs_end_in_matched_selector_witness :
    ∃ p, "#container .container-inner" = p ++ ".container-inner" :=
  (combinator_outputs_end_in_matched_selector descTestChain none ".container-inner"
    "#container .container-inner").1 (by decide)

/-!
## C7: which attributes contribute candidate tokens
-/

lemma foldl_attrStep_filter (step : List (String × Nat) → HAttribute → List (String × Nat))
    (hstep : ∀ sels a, a.key ≠ "id" ∧ a.key ≠ "class" → step sels a = sels) :
    ∀ (attrs : List HAttribute) (sels : List (String × Nat)),
      (attrs.filter (fun a => a.key = "id" ∨ a.key = "class")).foldl step sels
        = attrs.foldl step sels := by
  intro attrs
  induction attrs with
  | nil => intro sels; rfl
  | cons a rest ih =>
    intro sels
    by_cases h : a.key = "id" ∨ a.key = "class"
    · rw [List.filter_cons_of_pos (by simpa using h)]
      simp only [List.foldl_cons]
      exact ih _
    · rw [List.filter_cons_of_neg (by simpa using h)]
      simp only [List.foldl_cons]
      rw [hstep sels a (by tauto)]
      exact ih _

/-- C7 (counterexample): `AdjacentCombinatorSelectors` builds a candidate
from an attribute whose key is `style`, which is neither `id` nor `class`,
contradicting the claim that all four combinator functions build tokens
only from `id`/`class` attributes. -/
theorem adjacentCombinator_non_id_class_contributes :
    AdjacentCombinatorSelectors
        (some ⟨HNodeType.elementNode, [⟨"style", "x", 0⟩]⟩) ".a" = ["x + .a"] ∧
      ("style" ≠ "id" ∧ "style" ≠ "class") := by
  decide

/-- C7 (amended): the descendant and child walks build candidate tokens
only from attributes whose key is `id` or `class` (removing all other
attributes leaves their accumulators unchanged), while the
adjacent-sibling and general-sibling functions build candidates from
*every* attribute of the previous sibling; all split attribute values on
a single space, and the token prefix is `#` for `id`, `.` for `class` and
empty for any other key. -/
theorem combinator_token_sources :
    (∀ (chain : List NodeData) (targetSel : String),
        descSelNodes (chain.map filterIdClass) targetSel = descSelNodes chain targetSel) ∧
    (∀ (chain : List NodeData) (targetSel : String),
        childSelNodes (chain.map filterIdClass) targetSel = childSelNodes chain targetSel) ∧
    (∀ (p : NodeData) (targetSel s : String),
        s ∈ AdjacentCombinatorSelectors (some p) targetSel ↔
          ∃ a ∈ p.attr, ∃ v ∈ stringsSplitSpace a.val,
            s = selPrefix a.key ++ v ++ " + " ++ targetSel) ∧
    (∀ (p : NodeData) (targetSel s : String),
        s ∈ GeneralCombinatorSelectors (some p) targetSel ↔
          ∃ a ∈ p.attr, ∃ v ∈ stringsSplitSpace a.val,
            s = selPrefix a.key ++ v ++ " ~ " ++ targetSel) ∧
    (selPrefix "id" = "#" ∧ selPrefix "class" = "." ∧
      ∀ key, key ≠ "id" → key ≠ "class" → selPrefix key = "") := by
  refine ⟨?_, ?_, ?_, ?_, rfl, rfl, ?_⟩
  · intro chain targetSel
    unfold descSelNodes
    rw [List.enum_map, List.foldl_map]
    apply List.foldl_ext
    intro acc p _
    obtain ⟨k, nd⟩ := p
    show descNodeStep targetSel acc k (filterIdClass nd) = descNodeStep targetSel acc k nd
    unfold descNodeStep filterIdClass
    split
    · exact foldl_attrStep_filter (descAttrStep k targetSel)
        (fun sels a h => by unfold descAttrStep; rw [if_pos h]) nd.attr acc
    · rfl
  · intro chain targetSel
    unfold childSelNodes
    rw [List.enum_map, List.foldl_map, List.length_map]
    apply List.foldl_ext
    intro acc p _
    obtain ⟨k, nd⟩ := p
    show childNodeStep chain.length targetSel acc k (filterIdClass nd)
      = childNodeStep chain.length targetSel acc k nd
    unfold childNodeStep filterIdClass
    split
    · exact foldl_attrStep_filter (childAttrStep chain.length k targetSel)
        (fun sels a h => by unfold childAttrStep; rw [if_pos h]) nd.attr acc
    · rfl
  · intro p targetSel s
    constructor
    · intro hs
      simp only [AdjacentCombinatorSelectors, List.mem_flatMap, List.mem_map] at hs
      obtain ⟨a, ha, v, hv, heq⟩ := hs
      exact ⟨a, ha, v, hv, heq.symm⟩
    · rintro ⟨a, ha, v, hv, rfl⟩
      simp only [AdjacentCombinatorSelectors, List.mem_flatMap, List.mem_map]
      exact ⟨a, ha, v, hv, rfl⟩
  · intro p targetSel s
    constructor
    · intro hs
      simp only [GeneralCombinatorSelectors, List.mem_flatMap, List.mem_map] at hs
      obtain ⟨a, ha, v, hv, heq⟩ := hs
      exact ⟨a, ha, v, hv, heq.symm⟩
    · rintro ⟨a, ha, v, hv, rfl⟩
      simp only [GeneralCombinatorSelectors, List.mem_flatMap, List.mem_map]
      exact ⟨a, ha, v, hv, rfl⟩
  · intro key h1 h2
    unfold selPrefix
    rw [if_neg h1, if_neg h2]

/-- C7 (witness): instantiating the amended theorem at a previous sibling
with a `style` attribute. -/
theorem combinator_token_sources_witness :
    ∃ a ∈ [HAttribute.mk "style" "x" 0], ∃ v ∈ stringsSplitSpace a.val,
      "x + .a" = selPrefix a.key ++ v ++ " + " ++ ".a" :=
  (combinator_token_sources.2.2.1 ⟨HNodeType.elementNode, [⟨"style", "x", 0⟩]⟩ ".a"
    "x + .a").mp (by decide)

/-!
## C8, C9: the selector normalizer
-/

/-- C8: the three example evaluations of the spec hold:
`lastSelector "h1.title"` yields `.title`,
`lastSelector ".panel > .panel-body"` yields `.panel-body`, and
`lastSelector "div"` yields no selector. -/
theorem lastSelector_examples :
    lastSelector "h1.title" = Except.ok (some ".title") ∧
    lastSelector ".panel > .panel-body" = Except.ok (some ".panel-body") ∧
    lastSelector "div" = Except.ok none :=
  ⟨rfl, rfl, rfl⟩

/-- C9 (counterexample): on the empty string and on a string consisting
only of the combinator characters `>`, `+`, `~`, `strings.FieldsFunc`
yields no fields and the indexing `selectors[len(selectors)-1]` of
`lastSelector` is out of range (a run-time panic, embedded as
`Except.error ()`): the function does not terminate normally on every
input string. -/
theorem lastSelector_panics_on_combinator_only_input :
    lastSelector "" = Except.error () ∧ lastSelector ">+~" = Except.error () :=
  ⟨rfl, rfl⟩

lemma fieldsFuncAcc_ne_nil_of_acc {f : Char → Bool} :
    ∀ (cs acc : List Char), acc ≠ [] → fieldsFuncAcc f cs acc ≠ [] := by
  intro cs
  induction cs with
  | nil =>
    intro acc ha
    unfold fieldsFuncAcc
    rw [if_neg (by simpa [List.isEmpty_iff] using ha)]
    simp
  | cons c rest ih =>
    intro acc ha
    unfold fieldsFuncAcc
    split
    · split
      next hemp => exact absurd (List.isEmpty_iff.mp hemp) ha
      next => simp
    · exact ih (c :: acc) (by simp)

lemma fieldsFuncAcc_ne_nil {f : Char → Bool} :
    ∀ (cs acc : List Char), (∃ c ∈ cs, f c = false) → fieldsFuncAcc f cs acc ≠ [] := by
  intro cs
  induction cs with
  | nil =>
    rintro acc ⟨c, hc, -⟩
    exact absurd hc (List.not_mem_nil c)
  | cons c rest ih =>
    rintro acc ⟨d, hd, hfd⟩
    unfold fieldsFuncAcc
    rcases List.mem_cons.mp hd with rfl | hd'
    · rw [if_neg (by simp [hfd])]
      exact fieldsFuncAcc_ne_nil_of_acc rest (d :: acc) (by simp)
    · split
      · split
        · exact ih [] ⟨d, hd', hfd⟩
        · simp
      · exact fieldsFuncAcc_ne_nil_of_acc rest (c :: acc) (by simp)

/-- C9 (amended): `lastSelector` terminates normally — returning either a
trailing id/class component or no selector, never a failure — on every
input string that contains at least one character other than the
combinator characters `>`, `+`, `~`; on the remaining inputs (the empty
string and combinator-only strings) the split produces no fragments and
the indexing of the last fragment is out of range. -/
theorem lastSelector_total_on_non_combinator_input :
    ∀ s : String, (∃ c ∈ s.data, selSplitFn c = false) →
      ∃ r : Option String, lastSelector s = Except.ok r := by
  intro s h
  have hne : fieldsFunc selSplitFn s.data ≠ [] := fieldsFuncAcc_ne_nil s.data [] h
  obtain ⟨lastField, hlast⟩ : ∃ lf, (fieldsFunc selSplitFn s.data).getLast? = some lf := by
    cases h' : (fieldsFunc selSplitFn s.data).getLast? with
    | none => exact absurd (List.getLast?_eq_none_iff.mp h') hne
    | some lf => exact ⟨lf, rfl⟩
  unfold lastSelector
  rw [hlast]
  show ∃ r, (match descSelectorSubmatch (goTrimSpace lastField) with
    | none => Except.ok none
    | some g => Except.ok (some (String.mk g))) = Except.ok r
  cases hm : descSelectorSubmatch (goTrimSpace lastField) with
  | none => exact ⟨none, rfl⟩
  | some g => exact ⟨some (String.mk g), rfl⟩

/-- C9 (witness): instantiating the amended theorem at `"div"`. -/
theorem lastSelector_total_on_non_combinator_input_witness :
    ∃ r : Option String, lastSelector "div" = Except.ok r :=
  lastSelector_total_on_non_combinator_input "div" ⟨'d', by decide, by decide⟩

/-!
## C5: findOffsets
-/

lemma utf8Enc_append (l1 l2 : List Char) :
    utf8Enc (l1 ++ l2) = utf8Enc l1 ++ utf8Enc l2 :=
  List.flatMap_append l1 l2 encChar

lemma utf8Len_cons (c : Char) (l : List Char) :
    utf8Len (c :: l) = (encChar c).length + utf8Len l := by
  simp [utf8Len, utf8Enc]

lemma lexLe_relPos :
    ∀ (cs : List Char) (L C : Int),
      L < (relPos L C cs).1 ∨ ((relPos L C cs).1 = L ∧ C ≤ (relPos L C cs).2) := by
  intro cs
  induction cs with
  | nil =>
    intro L C
    right
    exact ⟨rfl, le_refl C⟩
  | cons c rest ih =>
    intro L C
    unfold relPos
    split
    · rcases ih (L + 1) 1 with h | h
      · left; omega
      · left; omega
    · rcases ih L (C + 1) with h | h
      · left; exact h
      · right; exact ⟨h.1, by omega⟩

lemma relPos_cons_ne (c : Char) (cs : List Char) (L C : Int) :
    relPos L C (c :: cs) ≠ (L, C) := by
  intro heq
  unfold relPos at heq
  split at heq
  · rcases lexLe_relPos cs (L + 1) 1 with h | h <;> rw [heq] at h <;> simp at h
  · rcases lexLe_relPos cs L (C + 1) with h | h <;> rw [heq] at h <;> simp at h

lemma findOffsetsAux_hit (tokLen : Nat) (line col : Int) :
    ∀ (cs : List Char) (i : Nat) (L C : Int) (off : Nat),
      i < cs.length → relPos L C (cs.take i) = (line, col) →
      findOffsetsAux tokLen line col cs L C off
        = (((off + utf8Len (cs.take i) : Nat) : Int),
           ((off + utf8Len (cs.take i) + tokLen : Nat) : Int)) := by
  intro cs
  induction cs with
  | nil =>
    intro i L C off hi
    simp at hi
  | cons c rest ih =>
    intro i L C off hi hpos
    cases i with
    | zero =>
      have hL : L = line ∧ C = col := by
        simpa [relPos, Prod.ext_iff] using hpos
      simp only [findOffsetsAux]
      rw [if_pos ⟨hL.1, hL.2⟩]
      simp [utf8Len, utf8Enc]
    | succ i' =>
      rw [List.take_succ_cons] at hpos
      have hne : ¬(L = line ∧ C = col) := by
        rintro ⟨rfl, rfl⟩
        exact relPos_cons_ne c (List.take i' rest) L C hpos
      have hi' : i' < rest.length := by simpa using hi
      simp only [findOffsetsAux]
      rw [if_neg hne]
      split
      next hc =>
        have hpos' : relPos (L + 1) 1 (rest.take i') = (line, col) := by
          unfold relPos at hpos
          rw [if_pos hc] at hpos
          exact hpos
        rw [ih i' (L + 1) 1 (off + (encChar c).length) hi' hpos']
        simp only [List.take_succ_cons, utf8Len_cons, Prod.mk.injEq]
        constructor <;> omega
      next hc =>
        have hpos' : relPos L (C + 1) (rest.take i') = (line, col) := by
          unfold relPos at hpos
          rw [if_neg hc] at hpos
          exact hpos
        rw [ih i' L (C + 1) (off + (encChar c).length) hi' hpos']
        simp only [List.take_succ_cons, utf8Len_cons, Prod.mk.injEq]
        constructor <;> omega

lemma findOffsetsAux_miss (tokLen : Nat) (line col : Int) :
    ∀ (cs : List Char) (L C : Int) (off : Nat),
      (∀ i, i < cs.length → relPos L C (cs.take i) ≠ (line, col)) →
      findOffsetsAux tokLen line col cs L C off = (-1, -1) := by
  intro cs
  induction cs with
  | nil => intro L C off _; rfl
  | cons c rest ih =>
    intro L C off h
    have h0 : ¬(L = line ∧ C = col) := by
      rintro ⟨rfl, rfl⟩
      exact h 0 (by simp) rfl
    simp only [findOffsetsAux]
    rw [if_neg h0]
    split
    next hc =>
      apply ih (L + 1) 1 (off + (encChar c).length)
      intro i hi hpos
      refine h (i + 1) (by simpa using hi) ?_
      rw [List.take_succ_cons]
      show relPos L C (c :: rest.take i) = _
      unfold relPos
      rw [if_pos hc]
      exact hpos
    next hc =>
      apply ih L (C + 1) (off + (encChar c).length)
      intro i hi hpos
      refine h (i + 1) (by simpa using hi) ?_
      rw [List.take_succ_cons]
      show relPos L C (c :: rest.take i) = _
      unfold relPos
      rw [if_neg hc]
      exact hpos

/-- C5: `findOffsets` scans the text once, tracking 1-based line and
column by counting `\n`.  If some character index `i` of the file text is
at the requested (line, column), the function returns
`(start, start + len(token))` where `start` is that character's byte
offset; and whenever the token indeed occurs at that position (the parser
reported its true position), the byte slice
`[start, start + len(token))` of the file text is exactly the token's
byte sequence.  If no character position matches, the sentinel `(-1, -1)`
is returned. -/
theorem findOffsets_locates_reported_position (text token : String) (line col : Int) :
    (∀ i : Nat, i < text.data.length →
        relPos 1 1 (text.data.take i) = (line, col) →
        findOffsets text line col token
            = (((utf8ByteOffset text.data i : Nat) : Int),
               ((utf8ByteOffset text.data i + utf8Len token.data : Nat) : Int)) ∧
          ((∃ r, text.data.drop i = token.data ++ r) →
            byteSlice (utf8Enc text.data) (utf8ByteOffset text.data i)
                (utf8ByteOffset text.data i + utf8Len token.data)
              = utf8Enc token.data)) ∧
    ((∀ i : Nat, i < text.data.length →
        relPos 1 1 (text.data.take i) ≠ (line, col)) →
      findOffsets text line col token = (-1, -1)) := by
  constructor
  · intro i hi hpos
    constructor
    · have hh := findOffsetsAux_hit (utf8Len token.data) line col text.data i 1 1 0 hi hpos
      unfold findOffsets utf8ByteOffset
      rw [hh]
      simp
    · rintro ⟨r, hr⟩
      have hsplit : text.data = text.data.take i ++ (token.data ++ r) := by
        conv_lhs => rw [← List.take_append_drop i text.data]
        rw [hr]
      have henc := congrArg utf8Enc hsplit
      rw [utf8Enc_append, utf8Enc_append] at henc
      unfold byteSlice utf8ByteOffset
      rw [Nat.add_sub_cancel_left, henc]
      have hlen : utf8Len (text.data.take i) = (utf8Enc (text.data.take i)).length := rfl
      rw [hlen, List.drop_left]
      have hlen2 : utf8Len token.data = (utf8Enc token.data).length := rfl
      rw [hlen2, List.take_left]
  · intro hmiss
    unfold findOffsets
    exact findOffsetsAux_miss (utf8Len token.data) line col text.data 1 1 0 hmiss

/-- C5 (witness): in the file text `"ab\ncd"`, position line 2 column 1
is the character `c` at byte offset 3; looking up the token `"cd"` there
returns the span `(3, 5)`, whose byte slice is exactly the token. -/
theorem findOffsets_locates_reported_position_witness :
    findOffsets "ab\ncd" 2 1 "cd" = (3, 5) ∧
    byteSlice (utf8Enc "ab\ncd".data) 3 5 = utf8Enc "cd".data := by
  have h := (findOffsets_locates_reported_position "ab\ncd" "cd" 2 1).1 3
    (by decide) (by decide)
  refine ⟨?_, ?_⟩
  · rw [h.1]; decide
  · have h2 := h.2 ⟨[], by decide⟩
    have e2 : utf8ByteOffset "ab\ncd".data 3 + utf8Len "cd".data = 5 := by decide
    have e1 : utf8ByteOffset "ab\ncd".data 3 = 3 := by decide
    rw [e2, e1] at h2
    exact h2

/-!
## C3: definitions use the raw selector chain text
-/

/-- C3 (counterexample): a rule with the bare tag selector `div` — for
which the selector normalizer yields no addressable component — still
produces a Definition, and its name is the raw text `div`; likewise a
selector chain produces a Definition keyed by the raw chain text, not by
its rightmost component: `cssDefsAndRefs` never consults
`lastSelector`. -/
theorem cssDefsAndRefs_keeps_raw_text_counterexample :
    ((cssDefsAndRefs ⟨"div", 1, 1⟩ "u" "div {}" "a.css" []).1.map (fun d => d.name))
        = ["div"] ∧
    lastSelector "div" = Except.ok none ∧
    ((cssDefsAndRefs ⟨".panel .panel-body", 1, 1⟩ "u" ".panel .panel-body {}" "b.css"
        []).1.map (fun d => (d.name, d.path)))
        = [(".panel .panel-body", "b.css.panel .panel-body")] :=
  ⟨by decide, rfl, by decide⟩

/-- C3 (amended): for every parsed CSS rule selector, the Definition
built by `cssDefsAndRefs` carries the raw selector text `s.Value` as its
name and the file path concatenated with that raw text as its def path
(the rightmost-component normalizer is not involved), and — against an
empty existing-definition set — a Definition is created for *every*
selector, including bare tag selectors with no id/class component. -/
theorem cssDefsAndRefs_uses_raw_selector_text :
    (∀ (s : CSSSelector) (uName data filePath : String) (existing : List GraphDef),
        ∀ d ∈ (cssDefsAndRefs s uName data filePath existing).1,
          d.name = s.value ∧ d.path = selectorDefPath filePath s.value) ∧
    (∀ (s : CSSSelector) (uName data filePath : String),
        (cssDefsAndRefs s uName data filePath []).1.map (fun d => d.name) = [s.value]) := by
  constructor
  · intro s uName data filePath existing d hd
    unfold cssDefsAndRefs at hd
    split at hd
    · exact absurd hd (List.not_mem_nil d)
    · rw [List.mem_singleton] at hd
      subst hd
      exact ⟨rfl, rfl⟩
  · intro s uName data filePath
    unfold cssDefsAndRefs
    rw [if_neg (by simp [defExist])]
    rfl

/-- C3 (witness): instantiating the amended theorem at the bare tag
selector `div`. -/
theorem cssDefsAndRefs_uses_raw_selector_text_witness :
    (mkSelectorDef ⟨"div", 1, 1⟩ "u" "div {}" "a.css").name = "div" ∧
    (mkSelectorDef ⟨"div", 1, 1⟩ "u" "div {}" "a.css").path = selectorDefPath "a.css" "div" :=
  cssDefsAndRefs_uses_raw_selector_text.1 ⟨"div", 1, 1⟩ "u" "div {}" "a.css" [] _ (by decide)

/-!
## C6: uniqueness of (name, path) over a doGraph run
-/

lemma cssSelectorStep_inv {uName data path : String}
    {acc : List GraphDef × List GraphRef} (s : CSSSelector)
    (hinv : DefsInv acc.1) : DefsInv (cssSelectorStep uName data path acc s).1 := by
  unfold cssSelectorStep
  split
  · exact hinv
  show DefsInv (acc.1 ++ (cssDefsAndRefs s uName data path acc.1).1)
  unfold cssDefsAndRefs
  split
  next hex => simpa using hinv
  next hex =>
    constructor
    · rw [List.pairwise_append]
      refine ⟨hinv.1, List.pairwise_singleton _ _, ?_⟩
      intro a ha b hb
      rw [List.mem_singleton] at hb
      subst hb
      rintro ⟨hn, hp⟩
      apply hex
      unfold defExist
      rw [List.any_eq_true]
      exact ⟨a, ha, by simp [hn, hp]⟩
    · intro d hd
      rw [List.mem_append] at hd
      rcases hd with hd | hd
      · exact hinv.2 d hd
      · rw [List.mem_singleton] at hd
        subst hd
        rfl

lemma cssRuleStep_inv {uName data path : String}
    {acc : List GraphDef × List GraphRef} (r : CSSRule)
    (hinv : DefsInv acc.1) : DefsInv (cssRuleStep uName data path acc r).1 := by
  unfold cssRuleStep
  show DefsInv (r.selectors.foldl (cssSelectorStep uName data path) acc).1
  exact @List.foldlRecOn _ _ (fun x => DefsInv x.1) r.selectors
    (cssSelectorStep uName data path) acc hinv (fun b hb s _ => cssSelectorStep_inv s hb)

lemma cssFileStep_inv {uName : String} {acc : List GraphDef × List GraphRef}
    (f : UnitFile) (hinv : DefsInv acc.1) : DefsInv (cssFileStep uName acc f).1 := by
  unfold cssFileStep
  split
  · next path data rules =>
    exact @List.foldlRecOn _ _ (fun x => DefsInv x.1) rules
      (cssRuleStep uName data path) acc hinv (fun b hb r _ => cssRuleStep_inv r hb)
  · exact hinv

lemma doGraph_defs_inv (uName : String) (files : List UnitFile)
    (resolve : String → String → String) : DefsInv (doGraph uName files resolve).1 := by
  show DefsInv (files.foldl (cssFileStep uName) ([], [])).1
  exact @List.foldlRecOn _ _ (fun x => DefsInv x.1) files (cssFileStep uName) ([], [])
    ⟨List.Pairwise.nil, by simp⟩ (fun b hb f _ => cssFileStep_inv f hb)

/-- C6: over an entire `doGraph` run, the emitted Definition list is
pairwise distinct on (name, def-path) — a later occurrence of the same
selector in the same file context is discarded by the `defExist` check —
and consequently also pairwise distinct on (name, file), so processing
the same stylesheet content twice creates no two Definitions with
identical (name, file). -/
theorem doGraph_def_uniqueness (uName : String) (files : List UnitFile)
    (resolve : String → String → String) :
    (doGraph uName files resolve).1.Pairwise
        (fun a b => ¬(a.name = b.name ∧ a.path = b.path)) ∧
    (doGraph uName files resolve).1.Pairwise
        (fun a b => ¬(a.name = b.name ∧ a.file = b.file)) := by
  have hinv := doGraph_defs_inv uName files resolve
  refine ⟨hinv.1, ?_⟩
  refine List.Pairwise.imp_of_mem ?_ hinv.1
  intro a b ha hb hR
  rintro ⟨hn, hf⟩
  exact hR ⟨hn, by rw [hinv.2 a ha, hinv.2 b hb, hn, hf]⟩

/-!
## C4: reference generation is gated by the stylesheet-link set
-/

lemma SelectorDef_mem {defs : List GraphDef} {sel : String} {chain : List NodeData}
    {prev : Option NodeData} {d : GraphDef}
    (h : SelectorDef defs sel chain prev = some d) : d ∈ defs := by
  unfold SelectorDef at h
  split at h
  next hf =>
    obtain rfl := Option.some.inj h
    exact List.mem_of_find?_eq_some hf
  next =>
    exact List.mem_of_find?_eq_some h

lemma attrValsRefs_defPath (defs : List GraphDef) (uName filePath : String)
    (chain : List NodeData) (prev : Option NodeData) (key : String) :
    ∀ (vals : List String) (start : Nat) (ref : GraphRef),
      ref ∈ attrValsRefs defs uName filePath chain prev key vals start →
      ∃ d ∈ defs, ref.defPath = d.path := by
  intro vals
  induction vals with
  | nil =>
    intro start ref h
    exact absurd h (List.not_mem_nil ref)
  | cons val rest ih =>
    intro start ref h
    simp only [attrValsRefs] at h
    cases hsd : SelectorDef defs (selPrefix key ++ val) chain prev with
    | none =>
      rw [hsd] at h
      exact ih _ ref h
    | some d =>
      rw [hsd] at h
      rcases List.mem_cons.mp h with rfl | h'
      · exact ⟨d, SelectorDef_mem hsd, rfl⟩
      · exact ih _ ref h'

lemma htmlAttrRefs_defPath {defs : List GraphDef} {uName filePath : String}
    {chain : List NodeData} {prev : Option NodeData} {a : HAttribute} {ref : GraphRef}
    (h : ref ∈ htmlAttrRefs defs uName filePath chain prev a) :
    ∃ d ∈ defs, ref.defPath = d.path := by
  unfold htmlAttrRefs at h
  split at h
  · exact absurd h (List.not_mem_nil ref)
  · exact attrValsRefs_defPath defs uName filePath chain prev a.key _ _ ref h

mutual

lemma walkNode_defPath (defs : List GraphDef) (uName filePath : String) :
    ∀ (anc : List NodeData) (prev : Option NodeData) (n : HNode) (ref : GraphRef),
      ref ∈ walkNode defs uName filePath anc prev n → ∃ d ∈ defs, ref.defPath = d.path
  | anc, prev, HNode.mk t attrs children, ref, href => by
    simp only [walkNode] at href
    rw [List.mem_append] at href
    rcases href with h1 | h2
    · split at h1
      · rw [List.mem_flatMap] at h1
        obtain ⟨a, _, h1⟩ := h1
        exact htmlAttrRefs_defPath h1
      · exact absurd h1 (List.not_mem_nil ref)
    · exact walkChildren_defPath defs uName filePath (⟨t, attrs⟩ :: anc) none children ref h2

lemma walkChildren_defPath (defs : List GraphDef) (uName filePath : String) :
    ∀ (anc : List NodeData) (prev : Option NodeData) (cs : List HNode) (ref : GraphRef),
      ref ∈ walkChildren defs uName filePath anc prev cs → ∃ d ∈ defs, ref.defPath = d.path
  | anc, prev, [], ref, h => absurd h (List.not_mem_nil ref)
  | anc, prev, c :: rest, ref, h => by
    simp only [walkChildren] at h
    rw [List.mem_append] at h
    rcases h with h | h
    · exact walkNode_defPath defs uName filePath anc prev c ref h
    · exact walkChildren_defPath defs uName filePath anc (some c.nodeData) rest ref h

end

lemma stylesheetHREFs_eq_nil {tokens : List HTMLToken} {resolve : String → String}
    (h : ∀ t ∈ tokens, isStylesheetLinkToken t = false) :
    stylesheetHREFs tokens resolve = [] := by
  unfold stylesheetHREFs
  rw [List.filterMap_eq_nil_iff]
  intro t ht
  rw [if_neg (by simp [h t ht])]

/-- C4: every Reference emitted by `htmlRefs` targets a Definition whose
file is among the document's resolved stylesheet-link set; a document
whose token stream contains no `<link rel="stylesheet">` tag yields zero
References (before the DOM walk), as does a document none of whose
resolved links matches any Definition's file — even if element id/class
tokens textually equal names of Definitions from unlinked files. -/
theorem htmlRefs_gated_by_stylesheet_links :
    ∀ (uName filePath : String) (tokens : List HTMLToken) (doc : HNode)
      (selectorDefs : List GraphDef) (resolve : String → String),
      ((∀ t ∈ tokens, isStylesheetLinkToken t = false) →
        htmlRefs uName filePath tokens doc selectorDefs resolve = []) ∧
      (filterDefs selectorDefs
          (fun d => (stylesheetHREFs tokens resolve).any (fun f => d.file == f)) = [] →
        htmlRefs uName filePath tokens doc selectorDefs resolve = []) ∧
      (∀ ref ∈ htmlRefs uName filePath tokens doc selectorDefs resolve,
        ∃ d ∈ selectorDefs, ref.defPath = d.path ∧
          d.file ∈ stylesheetHREFs tokens resolve) := by
  intro uName filePath tokens doc selectorDefs resolve
  refine ⟨?_, ?_, ?_⟩
  · intro hno
    unfold htmlRefs
    rw [if_pos]
    rw [stylesheetHREFs_eq_nil hno]
    simp [filterDefs]
  · intro hfil
    unfold htmlRefs
    rw [if_pos]
    rw [hfil]
    rfl
  · intro ref href
    have href' : ref ∈
        (if (filterDefs selectorDefs
              (fun d => (stylesheetHREFs tokens resolve).any (fun f => d.file == f))).length = 0
          then []
          else walkNode (filterDefs selectorDefs
              (fun d => (stylesheetHREFs tokens resolve).any (fun f => d.file == f)))
            uName filePath [] none doc) := href
    clear href
    split at href'
    · exact absurd href' (List.not_mem_nil ref)
    · obtain ⟨d, hd, hpath⟩ := walkNode_defPath _ uName filePath [] none doc ref href'
      unfold filterDefs at hd
      rw [List.mem_filter] at hd
      obtain ⟨hdm, hdf⟩ := hd
      rw [List.any_eq_true] at hdf
      obtain ⟨f, hf, hbeq⟩ := hdf
      refine ⟨d, hdm, hpath, ?_⟩
      rw [eq_of_beq hbeq]
      exact hf

/-- C4 (witness): an HTML document with no link tokens at all yields zero
references even though its element's class token `x` textually matches
the name `.x` of a Definition from the unlinked file `c.css`. -/
theorem htmlRefs_gated_by_stylesheet_links_witness :
    htmlRefs "u" "a.html" [] (HNode.mk HNodeType.elementNode [⟨"class", "x", 0⟩] [])
      [⟨"basic-css", "u", "c.css.x", ".x", "c.css", 1, 3, ⟨"selector", "class"⟩⟩]
      (fun s => s) = [] :=
  (htmlRefs_gated_by_stylesheet_links "u" "a.html" []
    (HNode.mk HNodeType.elementNode [⟨"class", "x", 0⟩] [])
    [⟨"basic-css", "u", "c.css.x", ".x", "c.css", 1, 3, ⟨"selector", "class"⟩⟩]
    (fun s => s)).1 (fun t ht => absurd ht (List.not_mem_nil t))

end SrclibCSS
